import Mathlib

/-!
Verification of the `massahud/retry` polling/retry library (Go packages
`await` and `goawait`) against its specification.

The embedding models the core retry engine:

* `await.Func` / `goawait.Poll` — the single-worker polling loop — are
  modelled by `Await.funcLoop` over an oracle (`PollStep`) giving, for each
  invocation `i` of the worker: the value and error the worker returns, the
  observation of `ctx.Err() != nil` at the check right after that invocation,
  which branch of the `select { <-ctx.Done() / <-retry.C }` race fires, and
  the wall-clock durations consumed.  Time is a `Nat` (nanoseconds); elapsed
  time accumulates the durations of worker invocations and waits.  Since the
  Go loop may run forever, the model takes fuel and returns `none` when the
  fuel is exhausted (i.e. the real loop is still running).

* `await.All` fans `Func` out over a name→worker registry (a `List` of
  name/spec pairs, mirroring the Go map) and aggregates into a map; the map
  built by `results[result.name] = result.Result` is modelled by `aggregate`
  (later inserts overwrite earlier ones).

* `await.workerPool` feeds the same registry through a fixed set of executor
  goroutines; its observable output is modelled by `poolRuns` over the
  executor queues, whose concatenation enumerates the registry (in some
  order determined by the input channel).

* `await.First` consumes worker completions in arrival order; it is modelled
  by `firstLoop` over the list of completions tagged with their
  `time.Since(start)` timestamps.  The `Bool` it returns records that the
  deferred `cancel()` of the derived context ran on return (it always does).

* `goawait.PollFirst` races `<-ctx.Done()` against the completion channel;
  it is modelled by `pollFirstLoop` over a stream of events (either the
  context becoming done or a worker completion), one consumed per loop
  iteration, with `g` iterations for `g` workers.
-/

namespace Await

/-- Mirror of the Go `await.Error` struct (identical to `goawait.Error`):
`errWork` is the last worker error captured (`nil` modelled as `none`) and
`since` the elapsed duration, in nanoseconds. -/
structure AwaitError (E : Type) where
  errWork : Option E
  since : Nat
  deriving Repr, DecidableEq

/-- Mirror of `Unwrap`: returns the underlying worker error, if any. -/
def AwaitError.unwrap {E : Type} (e : AwaitError E) : Option E :=
  e.errWork

/-- Mirror of the `Error() string` method.  Go renders the duration with
`%v` and the wrapped error with `%s`; those renderings are standard-library
code, abstracted here as `showDur` and `showErr`. -/
def AwaitError.errorString {E : Type} (showDur : Nat → String) (showErr : E → String)
    (e : AwaitError E) : String :=
  match e.errWork with
  | some w => "context cancelled after " ++ showDur e.since ++ " : " ++ showErr w
  | none => "context cancelled after " ++ showDur e.since

/-- Mirror of the Go `Result` struct: on success `value` is set and `err` is
`none`; on cancellation `err` holds the engine's `AwaitError`. -/
structure Result (V E : Type) where
  value : Option V
  err : Option (AwaitError E)
  deriving Repr, DecidableEq

/-- Oracle entry for one invocation of the worker inside the polling loop:
`value`/`err` is what the worker returns, `ctxDoneAfter` is the observation
of `ctx.Err() != nil` at the check right after the invocation returns,
`selectPicksDone` tells which branch of the subsequent
`select { <-ctx.Done() / <-retry.C }` fires (only consulted when that select
is reached), `workDur` the wall time the invocation consumes and `waitDur`
the time spent in the select when the done branch cuts the wait short. -/
structure PollStep (V E : Type) where
  value : V
  err : Option E
  ctxDoneAfter : Bool
  selectPicksDone : Bool
  workDur : Nat
  waitDur : Nat

/-- Outcome of a run of the polling loop, instrumented with the number of
worker invocations (`calls`), the number of full retry intervals waited out
(`waits`) and the total elapsed time at return. -/
structure RunResult (V E : Type) where
  result : Result V E
  calls : Nat
  waits : Nat
  elapsed : Nat
  deriving Repr, DecidableEq

/-- The body of the `for` loop shared verbatim by `await.Func` and
`goawait.Poll`: invoke the worker; on `err == nil` return a success
`Result`; otherwise if `ctx.Err() != nil` return a Failure wrapping the
worker's error; otherwise wait for the earlier of the retry timer and
`ctx.Done()` — done first returns the same Failure, the timer firing loops.
`i` counts invocations so far, `t` is elapsed time, `w` counts completed
interval waits.  The timer wait is charged one full `interval` after the
failing invocation returns. -/
def funcLoop {V E : Type} (steps : Nat → PollStep V E) (interval : Nat) :
    Nat → Nat → Nat → Nat → Option (RunResult V E)
  | 0, _, _, _ => none
  | fuel + 1, i, t, w =>
    let s := steps i
    let t1 := t + s.workDur
    match s.err with
    | none => some ⟨⟨some s.value, none⟩, i + 1, w, t1⟩
    | some e =>
      if s.ctxDoneAfter then
        some ⟨⟨none, some ⟨some e, t1⟩⟩, i + 1, w, t1⟩
      else if s.selectPicksDone then
        some ⟨⟨none, some ⟨some e, t1 + s.waitDur⟩⟩, i + 1, w, t1 + s.waitDur⟩
      else
        funcLoop steps interval fuel (i + 1) (t1 + interval) (w + 1)

/-- Mirror of `await.Func`: before the loop it checks `ctx.Err() != nil` and
fast-fails with a Failure carrying no worker error and `time.Since(start)`
— which is still (near) zero, nothing having run.  `ctxDoneAtStart` is the
observation of that initial check. -/
def Func {V E : Type} (ctxDoneAtStart : Bool) (steps : Nat → PollStep V E)
    (interval fuel : Nat) : Option (RunResult V E) :=
  if ctxDoneAtStart then
    some ⟨⟨none, some ⟨none, 0⟩⟩, 0, 0, 0⟩
  else
    funcLoop steps interval fuel 0 0 0

/-- Mirror of `goawait.Poll`: the same loop as `await.Func` but with no
fast-fail check before the first worker invocation. -/
def Poll {V E : Type} (steps : Nat → PollStep V E) (interval fuel : Nat) :
    Option (RunResult V E) :=
  funcLoop steps interval fuel 0 0 0

/-- One registered worker as the engine observes it: the initial
`ctx.Err()` observation of its own `Func` run plus its invocation oracle.
Each worker gets its own observations because each concurrent `Func` run
samples the shared context at its own times. -/
structure WorkerSpec (V E : Type) where
  ctxDoneAtStart : Bool
  steps : Nat → PollStep V E

/-- Run one registered worker through `Func`, as `workerMap` and
`workerPool` both do. -/
def runWorker {V E : Type} (interval fuel : Nat) (w : WorkerSpec V E) :
    Option (RunResult V E) :=
  Func w.ctxDoneAtStart w.steps interval fuel

/-- The per-worker outcomes produced by `workerMap`: one `Func` run per
registry entry, each paired with its name (`namedResult`).  `none` when some
worker's loop never terminates, in which case `All` blocks forever. -/
def AllRuns {V E : Type} (interval fuel : Nat)
    (workers : List (String × WorkerSpec V E)) :
    Option (List (String × RunResult V E)) :=
  workers.mapM fun nw => (runWorker interval fuel nw.2).map fun rr => (nw.1, rr)

/-- Mirror of `await.All`: drain the per-worker results and keep the
name/`Result` pairs to be inserted into the results map. -/
def All {V E : Type} (interval fuel : Nat)
    (workers : List (String × WorkerSpec V E)) :
    Option (List (String × Result V E)) :=
  (AllRuns interval fuel workers).map (List.map fun p => (p.1, p.2.result))

/-- The Go results map built by `results[result.name] = result.Result` and
then read at a key: later inserts overwrite earlier ones. -/
def aggregate {V E : Type} (rs : List (String × Result V E)) (n : String) :
    Option (Result V E) :=
  rs.foldl (fun acc kv => if kv.1 = n then some kv.2 else acc) none

/-- Mirror of `await.workerPool`'s observable output: each executor
goroutine processes, in order, the queue of workers it pulled from the input
channel, running the very same `Func` call per worker; the results channel
carries the concatenation (in some interleaving) of the per-executor
outputs.  A run of the pool is therefore determined by the executor queues,
whose concatenation enumerates the registry. -/
def poolRuns {V E : Type} (interval fuel : Nat)
    (queues : List (List (String × WorkerSpec V E))) :
    Option (List (String × RunResult V E)) :=
  (queues.mapM (AllRuns interval fuel)).map List.flatten

/-- The error message `await.First` synthesizes with `errors.New` when every
worker failed. -/
def allFailedMsg : String := "all worker functions failed"

/-- The error message `goawait.PollFirst` synthesizes when every poll
failed. -/
def allPollsFailedMsg : String := "all poll functions failed"

/-- Mirror of the result loop of `await.First`: consume worker completions
in arrival order (each tagged with `time.Since(start)` at its receipt),
skipping those with a non-nil `Err`; the first one with no error is
returned.  When the channel closes with no success seen, return the
synthesized all-failed Failure whose `since` is `time.Since(start)` at that
point, i.e. the timestamp of the last completion consumed (the running `t`
argument, `0` before any completion).  The returned `Bool` records that the
deferred `cancel()` of the derived context ran on return — it does on every
path. -/
def firstLoop (V : Type) : List (Nat × Result V String) → Nat →
    Result V String × Bool
  | [], t => (⟨none, some ⟨some allFailedMsg, t⟩⟩, true)
  | (t, r) :: rest, _ =>
    if r.err.isSome then firstLoop V rest t else (r, true)

/-- Mirror of `await.First` (unbounded path): completions arrive in some
order; the clock starts at `0` (`start := time.Now()`). -/
def First {V : Type} (completions : List (Nat × Result V String)) :
    Result V String × Bool :=
  firstLoop V completions 0

/-- One observable event inside `goawait.PollFirst`'s select loop: either
the caller's context is observed done (at elapsed time `t`) or a worker
completion is received from the results channel. -/
inductive FirstEvent (V : Type) where
  | ctxDone (t : Nat)
  | completion (t : Nat) (r : Result V String)

/-- Mirror of the select loop of `goawait.PollFirst`: it runs at most `g`
iterations (`g` = number of polls), each consuming one event.  A `ctxDone`
event returns a Failure with no underlying error; a successful completion
is returned as is; a failing completion is skipped.  After `g` events with
no success, return the synthesized all-failed Failure.  `none` models the
loop blocking forever (fewer than `g` events ever arrive).  The `Bool`
records that the deferred `cancel()` ran on return. -/
def pollFirstLoop (V : Type) : Nat → List (FirstEvent V) → Nat →
    Option (Result V String × Bool)
  | 0, _, t => some (⟨none, some ⟨some allPollsFailedMsg, t⟩⟩, true)
  | _ + 1, [], _ => none
  | _ + 1, FirstEvent.ctxDone t :: _, _ => some (⟨none, some ⟨none, t⟩⟩, true)
  | k + 1, FirstEvent.completion t r :: rest, _ =>
    if r.err.isSome then pollFirstLoop V k rest t else some (r, true)

/-- Mirror of `goawait.PollFirst` for a registry of `g` polls. -/
def PollFirst {V : Type} (g : Nat) (events : List (FirstEvent V)) :
    Option (Result V String × Bool) :=
  pollFirstLoop V g events 0

/-- Every return of the polling loop happens after at least one further
worker invocation: entering the loop always invokes the worker before any
check. -/
theorem funcLoop_calls_ge {V E : Type} (steps : Nat → PollStep V E) (interval : Nat) :
    ∀ fuel i t w rr, funcLoop steps interval fuel i t w = some rr → i + 1 ≤ rr.calls := by
  intro fuel
  induction fuel with
  | zero => intro i t w rr h; simp [funcLoop] at h
  | succ n ih =>
    intro i t w rr h
    simp only [funcLoop] at h
    split at h
    · cases h; simp
    · split at h
      · cases h; simp
      · split at h
        · cases h; simp
        · have := ih _ _ _ _ h
          omega

/-- If the first `k` invocations starting at index `i` fail with the
context never observed done and the retry timer always winning the select,
and invocation `i + k` succeeds, then the loop returns that invocation's
value as a success after exactly `k + 1` further calls and `k` full
interval waits. -/
theorem funcLoop_success {V E : Type} (steps : Nat → PollStep V E) (interval : Nat) :
    ∀ k fuel i t w, k < fuel →
      (∀ j, j < k → (steps (i + j)).err.isSome ∧ (steps (i + j)).ctxDoneAfter = false ∧
        (steps (i + j)).selectPicksDone = false) →
      (steps (i + k)).err = none →
      ∃ rr, funcLoop steps interval fuel i t w = some rr ∧
        rr.result = ⟨some (steps (i + k)).value, none⟩ ∧
        rr.calls = i + k + 1 ∧ rr.waits = w + k := by
  intro k
  induction k with
  | zero =>
    intro fuel i t w hfuel _ hsucc
    cases fuel with
    | zero => omega
    | succ n =>
      rw [Nat.add_zero] at hsucc
      exact ⟨⟨⟨some (steps i).value, none⟩, i + 1, w, t + (steps i).workDur⟩,
        by simp [funcLoop, hsucc], by simp, by simp, by simp⟩
  | succ m ih =>
    intro fuel i t w hfuel hfail hsucc
    cases fuel with
    | zero => omega
    | succ n =>
      obtain ⟨he, hd, hs⟩ := hfail 0 (Nat.succ_pos m)
      obtain ⟨e, he⟩ := Option.isSome_iff_exists.mp he
      rw [Nat.add_zero] at he hd hs
      have hrec := ih n (i + 1) (t + (steps i).workDur + interval) (w + 1)
        (by omega)
        (by
          intro j hj
          have hj2 := hfail (j + 1) (by omega)
          have hx : i + (j + 1) = i + 1 + j := by omega
          rw [hx] at hj2
          exact hj2)
        (by
          have hx : i + (m + 1) = i + 1 + m := by omega
          rw [hx] at hsucc
          exact hsucc)
      obtain ⟨rr, hrun, hres, hcalls, hwaits⟩ := hrec
      refine ⟨rr, ?_, ?_, by omega, by omega⟩
      · simp only [funcLoop, he, hd, hs]
        simpa using hrun
      · have hx : i + (m + 1) = i + 1 + m := by omega
        rw [hx]
        exact hres

/-- Whenever the loop returns a Failure, the Failure wraps exactly the
error of the most recent worker invocation (invocation `calls - 1`), at
least one invocation has happened, and the `Result` carries no value. -/
theorem funcLoop_failure_last {V E : Type} (steps : Nat → PollStep V E) (interval : Nat) :
    ∀ fuel i t w rr fe, funcLoop steps interval fuel i t w = some rr →
      rr.result.err = some fe →
      fe.errWork = (steps (rr.calls - 1)).err ∧ i + 1 ≤ rr.calls ∧
        rr.result.value = none := by
  intro fuel
  induction fuel with
  | zero => intro i t w rr fe h _; simp [funcLoop] at h
  | succ n ih =>
    intro i t w rr fe h hfe
    simp only [funcLoop] at h
    split at h
    · rename_i he
      cases h
      simp at hfe
    · rename_i e he
      split at h
      · cases h
        simp at hfe
        refine ⟨?_, by simp, rfl⟩
        rw [← hfe]
        simp [he]
      · split at h
        · cases h
          simp at hfe
          refine ⟨?_, by simp, rfl⟩
          rw [← hfe]
          simp [he]
        · have := ih _ _ _ _ _ h hfe
          exact ⟨this.1, by omega, this.2.2⟩

/-- A context that is already done when the poll starts: every observation
of it reports done.  The worker always fails with error message `boom`. -/
def doneCtxSteps : Nat → PollStep Nat String :=
  fun _ => ⟨0, some "boom", true, true, 0, 0⟩

/-- A worker that fails on its first invocation and succeeds with value `7`
on its second, with the context never done. -/
def succondSteps : Nat → PollStep Nat String
  | 0 => ⟨0, some "e0", false, false, 0, 0⟩
  | _ => ⟨7, none, false, false, 0, 0⟩

/-- A worker that always fails with error message `bad`, with the context
observed done right after the first invocation. -/
def failDoneSteps : Nat → PollStep Nat String :=
  fun _ => ⟨0, some "bad", true, false, 0, 0⟩

/-- A worker that fails on its first invocation and succeeds with value `9`
on its second, the context being observed done right after that second
invocation. -/
def lateDoneSteps : Nat → PollStep Nat String
  | 0 => ⟨0, some "e0", false, false, 0, 0⟩
  | _ => ⟨9, none, true, false, 0, 0⟩

/-- C1, counterexample: the claim asserts the fast-fail path for both
`await.Func` and `goawait.Poll`, but `goawait.Poll` has no check before the
loop: with a context already done at call time (every observation reports
done) and a worker failing with `boom`, `Poll` invokes the worker once
(`calls = 1`, not never) and the Failure's underlying error is `some
"boom"` (present, not absent). -/
theorem C1_counterexample :
    Poll doneCtxSteps 1 5 =
      some ⟨⟨none, some ⟨some "boom", 0⟩⟩, 1, 0, 0⟩ := by
  rfl

/-- C1, amended: only `await.Func` has the fast-fail path — with the
context already done at its initial check it returns a Failure with elapsed
time `0` and no underlying error, without invoking the worker
(`calls = 0`); `goawait.Poll` always invokes the worker at least once. -/
theorem C1_fastfail_func_only {V E : Type} (steps : Nat → PollStep V E)
    (interval fuel : Nat) :
    Func true steps interval fuel = some ⟨⟨none, some ⟨none, 0⟩⟩, 0, 0, 0⟩ ∧
    ∀ rr, Poll steps interval fuel = some rr → 1 ≤ rr.calls := by
  refine ⟨rfl, ?_⟩
  intro rr h
  have := funcLoop_calls_ge steps interval fuel 0 0 0 rr h
  omega

/-- C1, witness: the amended claim applied to the concrete already-done
context and always-failing worker. -/
theorem C1_fastfail_func_only_witness :
    Func true doneCtxSteps 1 5 = some ⟨⟨none, some ⟨none, 0⟩⟩, 0, 0, 0⟩ ∧
    1 ≤ (1 : Nat) := by
  refine ⟨(C1_fastfail_func_only doneCtxSteps 1 5).1, ?_⟩
  have h := (C1_fastfail_func_only doneCtxSteps 1 5).2
    ⟨⟨none, some ⟨some "boom", 0⟩⟩, 1, 0, 0⟩ (by rfl)
  exact h

/-- C2: a worker that fails on its first `N - 1` invocations (context never
done, timer always winning the select) and succeeds on its `N`-th returns a
success `Result` wrapping the worker's value after exactly `N` invocations,
having waited out exactly `N - 1` retry intervals — none after the
success. -/
theorem C2_success_short_circuit {V E : Type} (steps : Nat → PollStep V E)
    (interval fuel N : Nat) (hN : 1 ≤ N) (hfuel : N ≤ fuel)
    (hfail : ∀ i, i < N - 1 → (steps i).err.isSome ∧ (steps i).ctxDoneAfter = false ∧
      (steps i).selectPicksDone = false)
    (hsucc : (steps (N - 1)).err = none) :
    ∃ rr, Func false steps interval fuel = some rr ∧
      rr.result = ⟨some (steps (N - 1)).value, none⟩ ∧
      rr.calls = N ∧ rr.waits = N - 1 := by
  have h := funcLoop_success steps interval (N - 1) fuel 0 0 0 (by omega)
    (by intro j hj; simpa using hfail j (by omega))
    (by simpa using hsucc)
  obtain ⟨rr, hrun, hres, hcalls, hwaits⟩ := h
  exact ⟨rr, hrun, by simpa using hres, by omega, by omega⟩

/-- C2, witness: the worker succeeding on its second invocation returns
success with value `7` after exactly `2` calls and `1` interval wait. -/
theorem C2_success_short_circuit_witness :
    1 ≤ 2 ∧ ∃ rr, Func false succondSteps 1 5 = some rr ∧
      rr.result = ⟨some 7, none⟩ ∧ rr.calls = 2 ∧ rr.waits = 1 := by
  refine ⟨by omega, ?_⟩
  have h := C2_success_short_circuit succondSteps 1 5 2 (by omega) (by omega)
    (by
      intro i hi
      have hz : i = 0 := by omega
      subst hz
      simp [succondSteps])
    (by simp [succondSteps])
  simpa [succondSteps] using h

/-- C3: when the worker fails on every invocation and `Func` (entered with
the context not yet done) returns a Failure, at least one invocation has
happened and unwrapping the Failure yields exactly the error of the most
recent invocation. -/
theorem C3_failure_relays_last_error {V E : Type} (steps : Nat → PollStep V E)
    (interval fuel : Nat) (rr : RunResult V E) (fe : AwaitError E)
    (hAlways : ∀ i, (steps i).err.isSome)
    (hrun : Func false steps interval fuel = some rr)
    (hfe : rr.result.err = some fe) :
    1 ≤ rr.calls ∧ ∃ e, (steps (rr.calls - 1)).err = some e ∧ fe.unwrap = some e := by
  have hrun2 : funcLoop steps interval fuel 0 0 0 = some rr := hrun
  have h := funcLoop_failure_last steps interval fuel 0 0 0 rr fe hrun2 hfe
  obtain ⟨e, he⟩ := Option.isSome_iff_exists.mp (hAlways (rr.calls - 1))
  refine ⟨by omega, e, he, ?_⟩
  simp [AwaitError.unwrap, h.1, he]

/-- C3, witness: the always-failing worker whose context is done right
after the first invocation produces a Failure unwrapping to that
invocation's error `bad`. -/
theorem C3_failure_relays_last_error_witness :
    1 ≤ (1 : Nat) ∧ ∃ e, (failDoneSteps 0).err = some e ∧
      AwaitError.unwrap ⟨some "bad", 0⟩ = some e := by
  have h := C3_failure_relays_last_error failDoneSteps 1 1
    ⟨⟨none, some ⟨some "bad", 0⟩⟩, 1, 0, 0⟩ ⟨some "bad", 0⟩
    (by intro i; simp [failDoneSteps]) (by rfl) (by rfl)
  simpa using h

/-- C4: the string rendering of a Failure is exactly
`context cancelled after {elapsed}` when no underlying worker error was
captured and exactly `context cancelled after {elapsed} : {underlying}`
when one was. -/
theorem C4_error_string_shape {E : Type} (showDur : Nat → String)
    (showErr : E → String) (e : AwaitError E) :
    (e.errWork = none →
      e.errorString showDur showErr = "context cancelled after " ++ showDur e.since) ∧
    ∀ w, e.errWork = some w →
      e.errorString showDur showErr =
        "context cancelled after " ++ showDur e.since ++ " : " ++ showErr w := by
  constructor
  · intro h
    simp [AwaitError.errorString, h]
  · intro w h
    simp [AwaitError.errorString, h]

/-- C4, witness: both renderings at concrete Failures with elapsed `5`. -/
theorem C4_error_string_shape_witness :
    (⟨none, 5⟩ : AwaitError String).errorString toString id =
      "context cancelled after " ++ toString (5 : Nat) ∧
    (⟨some "boom", 5⟩ : AwaitError String).errorString toString id =
      "context cancelled after " ++ toString (5 : Nat) ++ " : " ++ id "boom" :=
  ⟨(C4_error_string_shape toString id ⟨none, 5⟩).1 rfl,
   (C4_error_string_shape toString id ⟨some "boom", 5⟩).2 "boom" rfl⟩

/-- C10: after each invocation the success check precedes the cancellation
check: if invocation `k` (with `k ≥ 1`, i.e. not the first) returns no
error while the context is observed done right after it, both `await.Func`
and `goawait.Poll` still return success wrapping that value, never a
Failure. -/
theorem C10_success_beats_cancellation {V E : Type} (steps : Nat → PollStep V E)
    (interval fuel k : Nat) (hk : 1 ≤ k) (hfuel : k < fuel)
    (hreach : ∀ j, j < k → (steps j).err.isSome ∧ (steps j).ctxDoneAfter = false ∧
      (steps j).selectPicksDone = false)
    (hsucc : (steps k).err = none) (hdone : (steps k).ctxDoneAfter = true) :
    (∃ rr, Func false steps interval fuel = some rr ∧
      rr.result = ⟨some (steps k).value, none⟩ ∧ rr.calls = k + 1) ∧
    ∃ rr, Poll steps interval fuel = some rr ∧
      rr.result = ⟨some (steps k).value, none⟩ ∧ rr.calls = k + 1 := by
  have h := funcLoop_success steps interval k fuel 0 0 0 hfuel
    (by intro j hj; simpa using hreach j hj) (by simpa using hsucc)
  obtain ⟨rr, hrun, hres, hcalls, _⟩ := h
  exact ⟨⟨rr, hrun, by simpa using hres, by omega⟩,
    ⟨rr, hrun, by simpa using hres, by omega⟩⟩

/-- Characterization of `mapM` over `Option` on a cons cell. -/
theorem mapM_cons_some {α β : Type} (f : α → Option β) (a : α) (l : List α)
    (r : List β) :
    (a :: l).mapM f = some r ↔
      ∃ b rl, f a = some b ∧ l.mapM f = some rl ∧ r = b :: rl := by
  simp only [List.mapM_cons, Option.bind_eq_some, Option.pure_def,
    Option.some_inj, bind, Option.bind_eq_some]
  constructor
  · rintro ⟨b, hb, rl, hrl, hr⟩
    exact ⟨b, rl, hb, hrl, hr.symm⟩
  · rintro ⟨b, rl, hb, hrl, hr⟩
    exact ⟨b, hb, rl, hrl, hr.symm⟩

/-- `mapM` over `Option` succeeds exactly when the function succeeds on
every element. -/
theorem mapM_isSome_iff {α β : Type} (f : α → Option β) :
    ∀ l : List α, (l.mapM f).isSome ↔ ∀ a ∈ l, (f a).isSome := by
  intro l
  induction l with
  | nil =>
    rw [List.mapM_nil]
    simp
  | cons a t ih =>
    constructor
    · intro h
      obtain ⟨r, hr⟩ := Option.isSome_iff_exists.mp h
      rw [mapM_cons_some] at hr
      obtain ⟨b, rl, hb, hrl, _⟩ := hr
      intro x hx
      rcases List.mem_cons.mp hx with hx | hx
      · subst hx; simp [hb]
      · exact (ih.mp (by rw [hrl]; rfl)) x hx
    · intro h
      obtain ⟨b, hb⟩ := Option.isSome_iff_exists.mp (h a (by simp))
      obtain ⟨rl, hrl⟩ := Option.isSome_iff_exists.mp
        (ih.mpr fun x hx => h x (by simp [hx]))
      rw [Option.isSome_iff_exists]
      exact ⟨b :: rl, (mapM_cons_some f a t (b :: rl)).mpr ⟨b, rl, hb, hrl, rfl⟩⟩

/-- A permutation of the input list permutes the (successful) output of
`mapM` over `Option`. -/
theorem mapM_perm_some {α β : Type} (f : α → Option β) {l1 l2 : List α}
    (hp : l1.Perm l2) :
    ∀ r1 r2, l1.mapM f = some r1 → l2.mapM f = some r2 → r1.Perm r2 := by
  induction hp with
  | nil =>
    intro r1 r2 h1 h2
    simp only [List.mapM_nil, Option.pure_def, Option.some_inj] at h1 h2
    subst h1; subst h2
    exact List.Perm.refl _
  | cons a hpt ih =>
    intro r1 r2 h1 h2
    rw [mapM_cons_some] at h1 h2
    obtain ⟨b1, rl1, hb1, hrl1, hr1⟩ := h1
    obtain ⟨b2, rl2, hb2, hrl2, hr2⟩ := h2
    rw [hb1] at hb2
    cases hb2
    subst hr1; subst hr2
    exact List.Perm.cons _ (ih rl1 rl2 hrl1 hrl2)
  | swap a b l =>
    intro r1 r2 h1 h2
    rw [mapM_cons_some] at h1 h2
    obtain ⟨c1, rl1, hc1, hrl1, hr1⟩ := h1
    obtain ⟨c2, rl2, hc2, hrl2, hr2⟩ := h2
    rw [mapM_cons_some] at hrl1 hrl2
    obtain ⟨d1, rm1, hd1, hrm1, hrl1e⟩ := hrl1
    obtain ⟨d2, rm2, hd2, hrm2, hrl2e⟩ := hrl2
    rw [hc1] at hd2
    rw [hd1] at hc2
    cases hd2
    cases hc2
    rw [hrm1] at hrm2
    cases hrm2
    subst hr1; subst hr2; subst hrl1e; subst hrl2e
    exact List.Perm.swap _ _ _
  | trans hp12 hp23 ih12 ih23 =>
    rename_i l1x l2x l3x
    intro r1 r2 h1 h2
    have hmid : (List.mapM f l2x).isSome := by
      rw [mapM_isSome_iff]
      intro a ha
      exact (mapM_isSome_iff f l1x).mp (by rw [h1]; rfl) a (hp12.mem_iff.mpr ha)
    obtain ⟨rmid, hrmid⟩ := Option.isSome_iff_exists.mp hmid
    exact (ih12 r1 rmid h1 hrmid).trans (ih23 rmid r2 hrmid h2)

/-- `AllRuns` on a cons: the head worker's run, then the rest. -/
theorem allRuns_cons {V E : Type} (interval fuel : Nat)
    (nw : String × WorkerSpec V E) (rest : List (String × WorkerSpec V E))
    (rs : List (String × RunResult V E)) :
    AllRuns interval fuel (nw :: rest) = some rs ↔
      ∃ rr rs2, runWorker interval fuel nw.2 = some rr ∧
        AllRuns interval fuel rest = some rs2 ∧ rs = (nw.1, rr) :: rs2 := by
  rw [AllRuns, mapM_cons_some]
  constructor
  · rintro ⟨b, rl, hb, hrl, hr⟩
    rw [Option.map_eq_some'] at hb
    obtain ⟨rr, hrr, hbeq⟩ := hb
    exact ⟨rr, rl, hrr, hrl, by rw [hr, hbeq]⟩
  · rintro ⟨rr, rs2, hrr, hrs2, hr⟩
    exact ⟨(nw.1, rr), rs2, by rw [hrr]; rfl, hrs2, hr⟩

/-- The names of the results produced by `workerMap` are exactly the names
of the registry, in order. -/
theorem allRuns_keys {V E : Type} (interval fuel : Nat) :
    ∀ (workers : List (String × WorkerSpec V E)) rs,
      AllRuns interval fuel workers = some rs →
      rs.map Prod.fst = workers.map Prod.fst := by
  intro workers
  induction workers with
  | nil =>
    intro rs h
    simp only [AllRuns, List.mapM_nil, Option.pure_def, Option.some_inj] at h
    subst h
    rfl
  | cons nw rest ih =>
    intro rs h
    rw [allRuns_cons] at h
    obtain ⟨rr, rs2, _, hrs2, hr⟩ := h
    subst hr
    simp [ih rs2 hrs2]

/-- Each registered worker contributes exactly its own `Func` run to the
output of `workerMap`. -/
theorem allRuns_mem {V E : Type} (interval fuel : Nat) :
    ∀ (workers : List (String × WorkerSpec V E)) rs n ws,
      AllRuns interval fuel workers = some rs → (n, ws) ∈ workers →
      ∃ rr, runWorker interval fuel ws = some rr ∧ (n, rr) ∈ rs := by
  intro workers
  induction workers with
  | nil => intro rs n ws _ hm; simp at hm
  | cons nw rest ih =>
    intro rs n ws h hm
    rw [allRuns_cons] at h
    obtain ⟨rr, rs2, hrr, hrs2, hr⟩ := h
    subst hr
    rcases List.mem_cons.mp hm with hm | hm
    · subst hm
      exact ⟨rr, hrr, by simp⟩
    · obtain ⟨rr2, hrr2, hmem⟩ := ih rs2 n ws hrs2 hm
      exact ⟨rr2, hrr2, by simp [hmem]⟩

/-- Folding the map-insertion over entries none of which carry the looked-up
name leaves the accumulator unchanged. -/
theorem foldl_insert_of_forall_ne {V E : Type} (n : String) :
    ∀ (rs : List (String × Result V E)) (acc : Option (Result V E)),
      (∀ kv ∈ rs, kv.1 ≠ n) →
      rs.foldl (fun acc kv => if kv.1 = n then some kv.2 else acc) acc = acc := by
  intro rs
  induction rs with
  | nil => intro acc _; rfl
  | cons kv rest ih =>
    intro acc h
    have h1 : kv.1 ≠ n := h kv (by simp)
    rw [List.foldl_cons, if_neg h1]
    exact ih acc fun kv2 hm => h kv2 (by simp [hm])

/-- With distinct names, reading the results map at a name returns exactly
that worker's entry, whatever was inserted before. -/
theorem foldl_insert_mem_nodup {V E : Type} (n : String) (r : Result V E) :
    ∀ (rs : List (String × Result V E)) (acc : Option (Result V E)),
      (rs.map Prod.fst).Nodup → (n, r) ∈ rs →
      rs.foldl (fun acc kv => if kv.1 = n then some kv.2 else acc) acc = some r := by
  intro rs
  induction rs with
  | nil => intro acc _ hm; simp at hm
  | cons kv rest ih =>
    intro acc hnd hm
    rw [List.map_cons, List.nodup_cons] at hnd
    rcases List.mem_cons.mp hm with hm | hm
    · subst hm
      rw [List.foldl_cons, if_pos rfl]
      refine foldl_insert_of_forall_ne n rest (some r) ?_
      intro kv2 hm2 heq
      have hmm : kv2.1 ∈ rest.map Prod.fst := List.mem_map_of_mem Prod.fst hm2
      rw [heq] at hmm
      exact hnd.1 hmm
    · rw [List.foldl_cons]
      exact ih _ hnd.2 hm

/-- Reading the aggregated results map of a name present in an association
list with distinct names. -/
theorem aggregate_mem_nodup {V E : Type} (rs : List (String × Result V E))
    (n : String) (r : Result V E)
    (hnd : (rs.map Prod.fst).Nodup) (hm : (n, r) ∈ rs) :
    aggregate rs n = some r :=
  foldl_insert_mem_nodup n r rs none hnd hm

/-- C5: when `All` returns, its key list is exactly the registry's name
list — one `Result` per registered worker, never partial; with distinct
names, the entry read for each worker is exactly the `Result` of that
worker's own `Func` run, independent of the others; and the empty registry
yields the empty mapping (no worker run at all). -/
theorem C5_all_complete_independent {V E : Type} (interval fuel : Nat)
    (workers : List (String × WorkerSpec V E)) (rs : List (String × Result V E))
    (hrun : All interval fuel workers = some rs) :
    rs.map Prod.fst = workers.map Prod.fst ∧
    ((workers.map Prod.fst).Nodup →
      ∀ n ws, (n, ws) ∈ workers →
        ∃ rr, runWorker interval fuel ws = some rr ∧
          aggregate rs n = some rr.result) ∧
    All interval fuel ([] : List (String × WorkerSpec V E)) = some [] := by
  rw [All, Option.map_eq_some'] at hrun
  obtain ⟨rs0, hrs0, hrseq⟩ := hrun
  subst hrseq
  have hkeys0 : rs0.map Prod.fst = workers.map Prod.fst :=
    allRuns_keys interval fuel workers rs0 hrs0
  have hkeys : (rs0.map fun p => (p.1, p.2.result)).map Prod.fst
      = workers.map Prod.fst := by
    rw [← hkeys0]
    simp
  refine ⟨hkeys, ?_, rfl⟩
  intro hnd n ws hm
  obtain ⟨rr, hrr, hmem⟩ := allRuns_mem interval fuel workers rs0 n ws hrs0 hm
  refine ⟨rr, hrr, ?_⟩
  refine aggregate_mem_nodup _ n rr.result (by rw [hkeys]; exact hnd) ?_
  exact List.mem_map_of_mem (fun p => (p.1, p.2.result)) hmem

/-- Splitting `AllRuns` over an append. -/
theorem allRuns_append {V E : Type} (interval fuel : Nat) :
    ∀ (l1 l2 : List (String × WorkerSpec V E)) r1 r2,
      AllRuns interval fuel l1 = some r1 → AllRuns interval fuel l2 = some r2 →
      AllRuns interval fuel (l1 ++ l2) = some (r1 ++ r2) := by
  intro l1
  induction l1 with
  | nil =>
    intro l2 r1 r2 h1 h2
    simp only [AllRuns, List.mapM_nil, Option.pure_def, Option.some_inj] at h1
    subst h1
    simpa using h2
  | cons nw rest ih =>
    intro l2 r1 r2 h1 h2
    rw [allRuns_cons] at h1
    obtain ⟨rr, rs2, hrr, hrs2, hr⟩ := h1
    subst hr
    rw [List.cons_append, allRuns_cons]
    exact ⟨rr, rs2 ++ r2, hrr, ih l2 rs2 r2 hrs2 h2, rfl⟩

/-- A successful run of the bounded worker pool is a successful run of
`workerMap` on the concatenation of the executor queues. -/
theorem poolRuns_eq_allRuns_flatten {V E : Type} (interval fuel : Nat) :
    ∀ (queues : List (List (String × WorkerSpec V E))) rs,
      poolRuns interval fuel queues = some rs →
      AllRuns interval fuel queues.flatten = some rs := by
  intro queues
  induction queues with
  | nil =>
    intro rs h
    simp only [poolRuns, List.mapM_nil, Option.pure_def, Option.map_some',
      List.flatten_nil, Option.some_inj] at h
    subst h
    rfl
  | cons q rest ih =>
    intro rs h
    rw [poolRuns, Option.map_eq_some'] at h
    obtain ⟨parts, hparts, hrs⟩ := h
    rw [mapM_cons_some] at hparts
    obtain ⟨r1, rl, hr1, hrl, hpeq⟩ := hparts
    subst hpeq
    subst hrs
    rw [List.flatten_cons]
    refine allRuns_append interval fuel q rest.flatten r1 rl.flatten hr1 ?_
    exact ih rl.flatten (by rw [poolRuns, hrl]; rfl)

/-- Two permuted result lists with distinct names aggregate to the same
map. -/
theorem aggregate_perm_nodup {V E : Type} (rs1 rs2 : List (String × Result V E))
    (hp : rs1.Perm rs2) (hnd : (rs2.map Prod.fst).Nodup) (n : String) :
    aggregate rs1 n = aggregate rs2 n := by
  have hnd1 : (rs1.map Prod.fst).Nodup := ((hp.map Prod.fst).nodup_iff).mpr hnd
  by_cases h : ∃ r, (n, r) ∈ rs2
  · obtain ⟨r, hr⟩ := h
    rw [aggregate_mem_nodup rs2 n r hnd hr,
      aggregate_mem_nodup rs1 n r hnd1 (hp.mem_iff.mpr hr)]
  · have h1 : ∀ kv ∈ rs1, kv.1 ≠ n := by
      intro kv hm heq
      refine h ⟨kv.2, ?_⟩
      have hmm : kv ∈ rs2 := hp.mem_iff.mp hm
      rw [← heq]
      simpa using hmm
    have h2 : ∀ kv ∈ rs2, kv.1 ≠ n := by
      intro kv hm heq
      refine h ⟨kv.2, ?_⟩
      rw [← heq]
      simpa using hm
    rw [aggregate, aggregate, foldl_insert_of_forall_ne n rs1 none h1,
      foldl_insert_of_forall_ne n rs2 none h2]

/-- C9: running the registry through the bounded worker pool — executor
queues that together enumerate the registry, in any order and with any
number of executors — produces a permutation of the per-worker runs of the
unbounded one-goroutine-per-worker execution, and (with distinct names) the
two aggregate to the very same name-to-`Result` map. -/
theorem C9_pool_refines_unbounded {V E : Type} (interval fuel : Nat)
    (workers : List (String × WorkerSpec V E))
    (queues : List (List (String × WorkerSpec V E)))
    (rsMap rsPool : List (String × RunResult V E))
    (hperm : queues.flatten.Perm workers)
    (hmap : AllRuns interval fuel workers = some rsMap)
    (hpool : poolRuns interval fuel queues = some rsPool)
    (hnd : (workers.map Prod.fst).Nodup) :
    rsPool.Perm rsMap ∧
    ∀ n, aggregate (rsPool.map fun p => (p.1, p.2.result)) n =
      aggregate (rsMap.map fun p => (p.1, p.2.result)) n := by
  have hflat := poolRuns_eq_allRuns_flatten interval fuel queues rsPool hpool
  have hpr : rsPool.Perm rsMap := by
    rw [AllRuns] at hflat hmap
    exact mapM_perm_some _ hperm rsPool rsMap hflat hmap
  refine ⟨hpr, ?_⟩
  intro n
  refine aggregate_perm_nodup _ _ (hpr.map _) ?_ n
  have hkeys : rsMap.map Prod.fst = workers.map Prod.fst :=
    allRuns_keys interval fuel workers rsMap hmap
  have : (rsMap.map fun p => (p.1, p.2.result)).map Prod.fst
      = workers.map Prod.fst := by
    rw [← hkeys]
    simp
  rw [this]
  exact hnd

/-- A worker that succeeds immediately with value `1`. -/
def okWorker : WorkerSpec Nat String :=
  ⟨false, fun _ => ⟨1, none, false, false, 0, 0⟩⟩

/-- A worker that always fails with `bad`, the context being done right
after its first invocation. -/
def badWorker : WorkerSpec Nat String := ⟨false, failDoneSteps⟩

/-- A two-worker registry: `a` succeeds, `b` fails until cancellation. -/
def regAB : List (String × WorkerSpec Nat String) :=
  [("a", okWorker), ("b", badWorker)]

/-- The aggregate `All` produces on `regAB`. -/
def rsAB : List (String × Result Nat String) :=
  [("a", ⟨some 1, none⟩), ("b", ⟨none, some ⟨some "bad", 0⟩⟩)]

/-- The per-worker runs `workerMap` produces on `regAB`. -/
def runsAB : List (String × RunResult Nat String) :=
  [("a", ⟨⟨some 1, none⟩, 1, 0, 0⟩), ("b", ⟨⟨none, some ⟨some "bad", 0⟩⟩, 1, 0, 0⟩)]

/-- Executor queues of a two-executor pool handing `b` to the first
executor and `a` to the second. -/
def queuesBA : List (List (String × WorkerSpec Nat String)) :=
  [[("b", badWorker)], [("a", okWorker)]]

/-- The per-worker runs the pool emits on `queuesBA` (completion order
`b` then `a`). -/
def runsBA : List (String × RunResult Nat String) :=
  [("b", ⟨⟨none, some ⟨some "bad", 0⟩⟩, 1, 0, 0⟩), ("a", ⟨⟨some 1, none⟩, 1, 0, 0⟩)]

/-- C5, witness: the claim applied to the concrete registry `regAB`, whose
aggregate is `rsAB`. -/
theorem C5_all_complete_independent_witness :
    rsAB.map Prod.fst = regAB.map Prod.fst ∧
    ((regAB.map Prod.fst).Nodup →
      ∀ n ws, (n, ws) ∈ regAB →
        ∃ rr, runWorker 1 5 ws = some rr ∧
          aggregate rsAB n = some rr.result) ∧
    All 1 5 ([] : List (String × WorkerSpec Nat String)) = some [] :=
  C5_all_complete_independent 1 5 regAB rsAB rfl

/-- C9, witness: the two-executor pool on `queuesBA` (which enumerates
`regAB` in the order `b`, `a`) produces a permutation of the unbounded
runs and the same aggregate map. -/
theorem C9_pool_refines_unbounded_witness :
    runsBA.Perm runsAB ∧
    ∀ n, aggregate (runsBA.map fun p => (p.1, p.2.result)) n =
      aggregate (runsAB.map fun p => (p.1, p.2.result)) n :=
  C9_pool_refines_unbounded 1 5 regAB queuesBA runsAB runsBA
    (List.Perm.swap ("a", okWorker) ("b", badWorker) [])
    rfl rfl (by decide)

/-- Elapsed time at the moment the completions channel is exhausted: the
timestamp of the last completion consumed, or the initial clock reading
when none arrived. -/
def lastTime {α : Type} : List (Nat × α) → Nat → Nat
  | [], t => t
  | (t, _) :: rest, _ => lastTime rest t

/-- When every completion carries a Failure, the result loop of `First`
consumes them all and synthesizes the all-failed Failure, timed at the last
completion. -/
theorem firstLoop_all_fail {V : Type} :
    ∀ (completions : List (Nat × Result V String)) (t0 : Nat),
      (∀ c ∈ completions, c.2.err.isSome) →
      firstLoop V completions t0 =
        (⟨none, some ⟨some allFailedMsg, lastTime completions t0⟩⟩, true) := by
  intro completions
  induction completions with
  | nil => intro t0 _; rfl
  | cons c rest ih =>
    intro t0 h
    obtain ⟨t, r⟩ := c
    have hr : r.err.isSome := h (t, r) (by simp)
    simp only [firstLoop, lastTime]
    rw [if_pos hr]
    exact ih t fun c hc => h c (by simp [hc])

/-- C6: when every worker's poll completes with a Failure before any
success, `First` returns the single synthesized Failure whose underlying
error is the generic all-failed error and whose elapsed time is the
since-start clock reading when the loop finished; the empty registry
yields that same Failure with elapsed time zero. -/
theorem C6_all_fail_aggregate {V : Type}
    (completions : List (Nat × Result V String))
    (hfail : ∀ c ∈ completions, c.2.err.isSome) :
    First completions =
      (⟨none, some ⟨some allFailedMsg, lastTime completions 0⟩⟩, true) ∧
    First ([] : List (Nat × Result V String)) =
      (⟨none, some ⟨some allFailedMsg, 0⟩⟩, true) :=
  ⟨firstLoop_all_fail completions 0 hfail, rfl⟩

/-- C6, witness: one failing completion at elapsed time `3`. -/
theorem C6_all_fail_aggregate_witness :
    First [(3, (⟨none, some ⟨some "x", 2⟩⟩ : Result Nat String))] =
      (⟨none, some ⟨some allFailedMsg, 3⟩⟩, true) ∧
    First ([] : List (Nat × Result Nat String)) =
      (⟨none, some ⟨some allFailedMsg, 0⟩⟩, true) := by
  have h := C6_all_fail_aggregate
    [(3, (⟨none, some ⟨some "x", 2⟩⟩ : Result Nat String))] (by decide)
  simpa [lastTime] using h

/-- The result loop of `First` returns exactly the first completion
carrying no error. -/
theorem firstLoop_first_success {V : Type} :
    ∀ (completions : List (Nat × Result V String)) (t0 : Nat)
      (c : Nat × Result V String),
      completions.find? (fun c => c.2.err.isNone) = some c →
      firstLoop V completions t0 = (c.2, true) ∧ c.2.err = none := by
  intro completions
  induction completions with
  | nil => intro t0 c h; simp at h
  | cons hd rest ih =>
    intro t0 c h
    obtain ⟨t, r⟩ := hd
    by_cases hr : r.err.isSome
    · rw [List.find?_cons_of_neg] at h
      · have hrec := ih t c h
        simp only [firstLoop]
        rw [if_pos hr]
        exact hrec
      · have := Option.isSome_iff_ne_none.mp hr
        simpa using this
    · have hnone : r.err = none := Option.not_isSome_iff_eq_none.mp hr
      rw [List.find?_cons_of_pos] at h
      · cases h
        refine ⟨?_, hnone⟩
        simp only [firstLoop]
        rw [if_neg hr]
      · simp [hnone]

/-- C7: whenever at least one completion arrives without error, `First`
returns the first such completion observed: its `Result` carries no error,
exactly that one `Result` is returned, and the deferred cancellation of the
derived scope runs on return. -/
theorem C7_first_success_wins {V : Type}
    (completions : List (Nat × Result V String))
    (hex : ∃ c ∈ completions, c.2.err = none) :
    ∃ c, completions.find? (fun c => c.2.err.isNone) = some c ∧
      c.2.err = none ∧ First completions = (c.2, true) := by
  obtain ⟨c0, hc0, hc0n⟩ := hex
  have hsome : ∃ c, completions.find? (fun c => c.2.err.isNone) = some c := by
    rw [← Option.isSome_iff_exists, List.find?_isSome]
    exact ⟨c0, hc0, by simp [hc0n]⟩
  obtain ⟨c, hc⟩ := hsome
  have h := firstLoop_first_success completions 0 c hc
  exact ⟨c, hc, h.2, h.1⟩

/-- C7, witness: a failing completion at time `1` followed by a successful
one with value `5` at time `2`; the success is returned. -/
theorem C7_first_success_wins_witness :
    ∃ c, [(1, (⟨none, some ⟨some "x", 1⟩⟩ : Result Nat String)),
        (2, (⟨some 5, none⟩ : Result Nat String))].find?
        (fun c => c.2.err.isNone) = some c ∧
      c.2.err = none ∧
      First [(1, (⟨none, some ⟨some "x", 1⟩⟩ : Result Nat String)),
        (2, (⟨some 5, none⟩ : Result Nat String))] = (c.2, true) :=
  C7_first_success_wins _ ⟨(2, ⟨some 5, none⟩), by simp, rfl⟩

/-- The select loop of `PollFirst` returns the deadline Failure as soon as
the context is observed done, however many failing completions were
consumed before, as long as not all `g` polls have reported. -/
theorem pollFirstLoop_ctxdone {V : Type} :
    ∀ (fails : List (FirstEvent V)) (g t : Nat) (rest : List (FirstEvent V))
      (tacc : Nat),
      fails.length < g →
      (∀ ev ∈ fails, ∃ tc r, ev = FirstEvent.completion tc r ∧ r.err.isSome) →
      pollFirstLoop V g (fails ++ FirstEvent.ctxDone t :: rest) tacc =
        some (⟨none, some ⟨none, t⟩⟩, true) := by
  intro fails
  induction fails with
  | nil =>
    intro g t rest tacc hg _
    cases g with
    | zero => omega
    | succ k => rfl
  | cons ev fails2 ih =>
    intro g t rest tacc hg hf
    obtain ⟨tc, r, hev, hr⟩ := hf ev (by simp)
    subst hev
    cases g with
    | zero => simp at hg
    | succ k =>
      simp only [List.cons_append, pollFirstLoop]
      rw [if_pos hr]
      exact ih k t rest tc (by simpa using hg) fun e he => hf e (by simp [he])

/-- C8: if the caller's deadline is observed done before any success
arrives and before all `g` polls have failed, `PollFirst` returns
immediately with a Failure carrying no underlying error, and the deferred
cancellation of the derived scope runs on return. -/
theorem C8_deadline_preempts {V : Type} (g t : Nat)
    (fails rest : List (FirstEvent V))
    (hlen : fails.length < g)
    (hfails : ∀ ev ∈ fails, ∃ tc r, ev = FirstEvent.completion tc r ∧ r.err.isSome) :
    PollFirst g (fails ++ FirstEvent.ctxDone t :: rest) =
      some (⟨none, some ⟨none, t⟩⟩, true) :=
  pollFirstLoop_ctxdone fails g t rest 0 hlen hfails

/-- C8, witness: two polls, one failing completion consumed, then the
context observed done at elapsed time `4`. -/
theorem C8_deadline_preempts_witness :
    PollFirst 2 [FirstEvent.completion 1 (⟨none, some ⟨some "x", 1⟩⟩ : Result Nat String),
        FirstEvent.ctxDone 4] =
      some (⟨none, some ⟨none, 4⟩⟩, true) := by
  have h := C8_deadline_preempts 2 4
    [FirstEvent.completion 1 (⟨none, some ⟨some "x", 1⟩⟩ : Result Nat String)]
    ([] : List (FirstEvent Nat)) (by simp)
    (by
      intro ev hev
      rw [List.mem_singleton] at hev
      subst hev
      exact ⟨1, ⟨none, some ⟨some "x", 1⟩⟩, rfl, rfl⟩)
  simpa using h

/-- C10, witness: the worker succeeding on its second invocation with the
context then already done still yields success with value `9`. -/
theorem C10_success_beats_cancellation_witness :
    (∃ rr, Func false lateDoneSteps 1 5 = some rr ∧
      rr.result = ⟨some 9, none⟩ ∧ rr.calls = 2) ∧
    ∃ rr, Poll lateDoneSteps 1 5 = some rr ∧
      rr.result = ⟨some 9, none⟩ ∧ rr.calls = 2 := by
  have h := C10_success_beats_cancellation lateDoneSteps 1 5 1 (by omega) (by omega)
    (by
      intro j hj
      have hz : j = 0 := by omega
      subst hz
      simp [lateDoneSteps])
    (by simp [lateDoneSteps]) (by simp [lateDoneSteps])
  simpa [lateDoneSteps] using h

end Await
